import Mathlib

/-!
Verification of the scheduler core of RxCpp (rx-scheduler.hpp).

The definitions below are shallow embeddings of the C++ entities in
src/Rx/v2/src/rxcpp/rx-scheduler.hpp: the time-ordered queue
(schedulable_queue), the recursion protocol (recursed / recurse),
the action loop produced by make_action, the schedulable invocation
guard (detacher), worker rebinding, and the periodic scheduling
composition.  Machine time points and durations are modelled as Nat;
the int64_t insertion ordinal is modelled as Nat (it only ever
increments from zero).
-/

namespace RxSched

/-! ## Time-ordered queue (detail::time_schedulable, detail::schedulable_queue) -/

/-- Embedding of detail::time_schedulable: a deadline plus a payload.
The payload stands for the stored schedulable. -/
structure time_schedulable (α : Type) where
  tpoint : Nat
  what : α
deriving DecidableEq

/-- Embedding of schedulable_queue::elem_type: the stored item paired with
the insertion ordinal assigned by push. -/
structure elem_type (α : Type) where
  item : time_schedulable α
  ordinal : Nat
deriving DecidableEq

/-- Embedding of schedulable_queue::compare_elem: lhs sorts after rhs when
its deadline is later, with the insertion ordinal as tie-break.  Matches the
source comparator passed to std::priority_queue. -/
def compare_elem {α : Type} (lhs rhs : elem_type α) : Bool :=
  if lhs.item.tpoint = rhs.item.tpoint then decide (lhs.ordinal > rhs.ordinal)
  else decide (lhs.item.tpoint > rhs.item.tpoint)

/-- The element std::priority_queue keeps at the top: the maximum of the
entries with respect to compare_elem, computed by folding the comparator
over the entries. -/
def pq_max {α : Type} : elem_type α → List (elem_type α) → elem_type α
  | e, [] => e
  | e, x :: xs => pq_max (if compare_elem e x then x else e) xs

/-- Embedding of detail::schedulable_queue: the pending (item, ordinal)
pairs plus the next ordinal to assign. -/
structure schedulable_queue (α : Type) where
  entries : List (elem_type α)
  ordinal : Nat

/-- A fresh schedulable_queue: no entries, ordinal counter at zero. -/
def schedulable_queue.init {α : Type} : schedulable_queue α := ⟨[], 0⟩

/-- Embedding of schedulable_queue::push: stamp the item with the current
ordinal and advance the counter. -/
def schedulable_queue.push {α : Type} (q : schedulable_queue α)
    (v : time_schedulable α) : schedulable_queue α :=
  ⟨q.entries ++ [⟨v, q.ordinal⟩], q.ordinal + 1⟩

/-- Remove the first entry carrying the given ordinal. -/
def eraseOrd {α : Type} : List (elem_type α) → Nat → List (elem_type α)
  | [], _ => []
  | x :: xs, o => if x.ordinal = o then xs else x :: eraseOrd xs o

/-- Embedding of schedulable_queue::top: the item of the maximal entry
under compare_elem (none when the queue is empty). -/
def schedulable_queue.top? {α : Type} (q : schedulable_queue α) :
    Option (time_schedulable α) :=
  match q.entries with
  | [] => none
  | e :: es => some (pq_max e es).item

/-- Embedding of schedulable_queue::pop: drop the entry top points at. -/
def schedulable_queue.pop {α : Type} (q : schedulable_queue α) :
    schedulable_queue α :=
  match q.entries with
  | [] => q
  | e :: es => ⟨eraseOrd (e :: es) (pq_max e es).ordinal, q.ordinal⟩

/-- Repeatedly read the maximal entry and pop it, keeping the ordinals
visible.  fuel bounds the number of iterations. -/
def drainElems {α : Type} : Nat → schedulable_queue α → List (elem_type α)
  | 0, _ => []
  | fuel + 1, q =>
    match q.entries with
    | [] => []
    | e :: es => pq_max e es :: drainElems fuel q.pop

/-- Repeatedly read top() and pop(), collecting the items returned. -/
def drainQ {α : Type} : Nat → schedulable_queue α → List (time_schedulable α)
  | 0, _ => []
  | fuel + 1, q =>
    match q.top? with
    | none => []
    | some t => t :: drainQ fuel q.pop

/-- Push a whole list of items, in order, into the queue. -/
def pushAll {α : Type} (q : schedulable_queue α)
    (l : List (time_schedulable α)) : schedulable_queue α :=
  l.foldl schedulable_queue.push q

/-- Stamp a list of items with consecutive ordinals starting at n: this is
the entries list produced by pushing the items into a queue whose counter
stands at n. -/
def stamp {α : Type} : Nat → List (time_schedulable α) → List (elem_type α)
  | _, [] => []
  | n, x :: xs => ⟨x, n⟩ :: stamp (n + 1) xs

/-- Strict dispatch precedence between queue entries: earlier deadline, or
equal deadline and earlier insertion ordinal. -/
def keyLt {α : Type} (a b : elem_type α) : Prop :=
  a.item.tpoint < b.item.tpoint ∨
    (a.item.tpoint = b.item.tpoint ∧ a.ordinal < b.ordinal)

lemma compare_elem_iff {α : Type} (a b : elem_type α) :
    compare_elem a b = true ↔ keyLt b a := by
  unfold compare_elem keyLt
  split <;> simp <;> omega

lemma pq_max_mem {α : Type} (e : elem_type α) (es : List (elem_type α)) :
    pq_max e es ∈ e :: es := by
  induction es generalizing e with
  | nil => simp [pq_max]
  | cons x xs ih =>
    by_cases hc : compare_elem e x
    · have h := ih x
      simp only [pq_max, hc, if_true, List.mem_cons] at *
      tauto
    · have h := ih e
      simp only [pq_max, hc, if_false, List.mem_cons, Bool.false_eq_true] at *
      tauto

lemma pq_max_min {α : Type} (e : elem_type α) (es : List (elem_type α)) :
    ∀ x ∈ e :: es, ¬ keyLt x (pq_max e es) := by
  induction es generalizing e with
  | nil =>
    intro x hx
    simp only [List.mem_cons, List.not_mem_nil, or_false] at hx
    subst hx
    simp only [pq_max]
    unfold keyLt; omega
  | cons y ys ih =>
    intro x hx
    by_cases hc : compare_elem e y
    · have hlt : keyLt y e := (compare_elem_iff e y).mp hc
      have hy := ih y y (by simp)
      simp only [pq_max, hc, if_true]
      rcases List.mem_cons.mp hx with rfl | hx2
      · intro hxe
        exact hy (by unfold keyLt at *; omega)
      · exact ih y x hx2
    · have hnlt : ¬ keyLt y e := by
        intro h
        exact hc ((compare_elem_iff e y).mpr h)
      have he := ih e e (by simp)
      simp only [pq_max, hc, Bool.false_eq_true, if_false]
      rcases List.mem_cons.mp hx with rfl | hx2
      · exact he
      · rcases List.mem_cons.mp hx2 with rfl | hx3
        · intro hxf
          exact he (by unfold keyLt at *; omega)
        · exact ih e x (by simp [hx3])

/-- Pairwise-distinct insertion ordinals. -/
def ordsDistinct {α : Type} (l : List (elem_type α)) : Prop :=
  List.Pairwise (fun a b : elem_type α => a.ordinal ≠ b.ordinal) l

lemma eraseOrd_perm {α : Type} :
    ∀ (l : List (elem_type α)) (m : elem_type α), m ∈ l → ordsDistinct l →
      l.Perm (m :: eraseOrd l m.ordinal) := by
  intro l
  induction l with
  | nil => intro m hm; simp at hm
  | cons a as ih =>
    intro m hm hd
    have hda : ∀ b ∈ as, a.ordinal ≠ b.ordinal :=
      fun b hb => List.rel_of_pairwise_cons hd hb
    have hdas : ordsDistinct as := hd.of_cons
    by_cases he : a.ordinal = m.ordinal
    · have hma : m = a := by
        rcases List.mem_cons.mp hm with rfl | hmas
        · rfl
        · exact absurd he (hda m hmas)
      subst hma
      simp [eraseOrd, he]
    · have hmas : m ∈ as := by
        rcases List.mem_cons.mp hm with rfl | h
        · exact absurd rfl he
        · exact h
      have hperm := ih m hmas hdas
      simp only [eraseOrd, he, if_false]
      exact (hperm.cons a).trans (List.Perm.swap m a _)

lemma keyLt_of_not_lt {α : Type} {a b : elem_type α}
    (h1 : ¬ keyLt a b) (h2 : a.ordinal ≠ b.ordinal) : keyLt b a := by
  unfold keyLt at *; omega

lemma ordsDistinct_symm {α : Type} :
    Symmetric (fun a b : elem_type α => a.ordinal ≠ b.ordinal) := by
  intro a b h
  exact fun e => h e.symm

/-- Draining a queue with pairwise-distinct ordinals gives back a
permutation of its entries, in strictly ascending dispatch order. -/
lemma drainElems_perm_sorted {α : Type} :
    ∀ (fuel : Nat) (q : schedulable_queue α),
      q.entries.length ≤ fuel → ordsDistinct q.entries →
      (drainElems fuel q).Perm q.entries ∧
        List.Pairwise keyLt (drainElems fuel q) := by
  intro fuel
  induction fuel with
  | zero =>
    intro q hlen _
    have : q.entries = [] := List.eq_nil_of_length_eq_zero (Nat.le_zero.mp hlen)
    simp [drainElems, this]
  | succ n ih =>
    intro q hlen hd
    obtain ⟨ents, qo⟩ := q
    cases ents with
    | nil => simp [drainElems]
    | cons e es =>
      set m := pq_max e es with hm
      have hmem : m ∈ e :: es := pq_max_mem e es
      have hperm : (e :: es).Perm (m :: eraseOrd (e :: es) m.ordinal) :=
        eraseOrd_perm (e :: es) m hmem hd
      have hdrest : ordsDistinct (m :: eraseOrd (e :: es) m.ordinal) :=
        (hperm.pairwise_iff (fun {a b} h e => h e.symm)).mp hd
      have hdtail : ordsDistinct (eraseOrd (e :: es) m.ordinal) :=
        hdrest.of_cons
      have hmo : ∀ b ∈ eraseOrd (e :: es) m.ordinal, m.ordinal ≠ b.ordinal :=
        fun b hb => List.rel_of_pairwise_cons hdrest hb
      have hlen2 : (eraseOrd (e :: es) m.ordinal).length ≤ n := by
        have := hperm.length_eq
        simp only [List.length_cons] at this hlen
        omega
      have hpop : (schedulable_queue.mk (e :: es) qo).pop =
          ⟨eraseOrd (e :: es) m.ordinal, qo⟩ := by
        simp [schedulable_queue.pop, hm]
      have hrec := ih ⟨eraseOrd (e :: es) m.ordinal, qo⟩ hlen2 hdtail
      have hunf : drainElems (n + 1) (schedulable_queue.mk (e :: es) qo) =
          m :: drainElems n ⟨eraseOrd (e :: es) m.ordinal, qo⟩ := by
        simp [drainElems, hpop, hm]
      constructor
      · rw [hunf]
        exact (hrec.1.cons m).trans hperm.symm
      · rw [hunf]
        refine List.Pairwise.cons ?_ hrec.2
        intro x hx
        have hxrest : x ∈ eraseOrd (e :: es) m.ordinal := hrec.1.mem_iff.mp hx
        have hxorig : x ∈ e :: es := hperm.mem_iff.mpr (by simp [hxrest])
        have hnlt : ¬ keyLt x m := pq_max_min e es x hxorig
        exact keyLt_of_not_lt hnlt (fun h => hmo x hxrest h.symm)

lemma pushAll_spec {α : Type} :
    ∀ (l : List (time_schedulable α)) (q : schedulable_queue α),
      (pushAll q l).entries = q.entries ++ stamp q.ordinal l ∧
        (pushAll q l).ordinal = q.ordinal + l.length := by
  intro l
  induction l with
  | nil => intro q; simp [pushAll, stamp]
  | cons x xs ih =>
    intro q
    have h := ih (q.push x)
    simp only [pushAll, List.foldl_cons] at h ⊢
    refine ⟨?_, ?_⟩
    · rw [h.1]
      simp [schedulable_queue.push, stamp, List.append_assoc]
    · rw [h.2]
      simp only [schedulable_queue.push, List.length_cons]
      omega

lemma stamp_ord_ge {α : Type} :
    ∀ (l : List (time_schedulable α)) (n : Nat) (x : elem_type α),
      x ∈ stamp n l → n ≤ x.ordinal := by
  intro l
  induction l with
  | nil => intro n x hx; simp [stamp] at hx
  | cons a as ih =>
    intro n x hx
    rcases List.mem_cons.mp hx with rfl | h
    · simp
    · have := ih (n + 1) x h
      omega

lemma stamp_distinct {α : Type} :
    ∀ (l : List (time_schedulable α)) (n : Nat), ordsDistinct (stamp n l) := by
  intro l
  induction l with
  | nil => intro n; simp [stamp, ordsDistinct]
  | cons a as ih =>
    intro n
    refine List.Pairwise.cons ?_ (ih (n + 1))
    intro b hb
    have := stamp_ord_ge as (n + 1) b hb
    simp only
    omega

lemma drainQ_eq_drainElems {α : Type} :
    ∀ (fuel : Nat) (q : schedulable_queue α),
      drainQ fuel q = (drainElems fuel q).map elem_type.item := by
  intro fuel
  induction fuel with
  | zero => intro q; simp [drainQ, drainElems]
  | succ n ih =>
    intro q
    obtain ⟨ents, qo⟩ := q
    cases ents with
    | nil => simp [drainQ, drainElems, schedulable_queue.top?]
    | cons e es =>
      simp [drainQ, drainElems, schedulable_queue.top?, ih]

/-- C1: pushing any sequence of items into the schedulable_queue and then
repeatedly reading top() and pop() yields the items in ascending deadline
order, FIFO by insertion ordinal among equal deadlines (the drained entry
sequence is a permutation of the pushed items stamped with their push
indices and is strictly sorted by the (deadline, ordinal) key, which never
consults the payload); in particular pushing payloads 100, 200, 300 at
deadlines 5, 5, 3 drains as deadline 3 first, then the first-pushed
deadline-5 item, then the second. -/
theorem schedulable_queue_fifo_order :
    (∀ l : List (time_schedulable Nat),
      (drainElems (pushAll schedulable_queue.init l).entries.length
          (pushAll schedulable_queue.init l)).Perm (stamp 0 l) ∧
      List.Pairwise keyLt
        (drainElems (pushAll schedulable_queue.init l).entries.length
          (pushAll schedulable_queue.init l)) ∧
      drainQ (pushAll schedulable_queue.init l).entries.length
          (pushAll schedulable_queue.init l) =
        ((drainElems (pushAll schedulable_queue.init l).entries.length
          (pushAll schedulable_queue.init l)).map elem_type.item)) ∧
    drainQ 3 (pushAll schedulable_queue.init
        [⟨5, 100⟩, ⟨5, 200⟩, ⟨3, 300⟩]) =
      [⟨3, 300⟩, ⟨5, 100⟩, ⟨5, 200⟩] := by
  constructor
  · intro l
    have hspec := pushAll_spec l (schedulable_queue.init)
    have hents : (pushAll schedulable_queue.init l).entries = stamp 0 l := by
      rw [hspec.1]; rfl
    have hdist : ordsDistinct (pushAll schedulable_queue.init l).entries := by
      rw [hents]; exact stamp_distinct l 0
    have h := drainElems_perm_sorted
      (pushAll schedulable_queue.init l).entries.length
      (pushAll schedulable_queue.init l) (le_refl _) hdist
    refine ⟨?_, h.2, drainQ_eq_drainElems _ _⟩
    rw [← hents]
    exact h.1
  · decide

/-! ## Recursion protocol (recursed, recurse) -/

/-- Embedding of class recurse: the tail-recursion allowance supplied by
the dispatching context and the mutable requested flag shared with the
recursed token.  The recursed token is the operation recursed_fire. -/
structure recurse_t where
  isallowed : Bool
  isrequested : Bool
deriving DecidableEq

/-- Embedding of the recurse constructor: isrequested is initialized to
true. -/
def recurse_mk (a : Bool) : recurse_t := ⟨a, true⟩

/-- Embedding of recurse::reset: clear the requested flag. -/
def recurse_reset (r : recurse_t) : recurse_t := { r with isrequested := false }

/-- Embedding of recursed::operator(): the token obtained from
recurse::get_recursed writes true into the shared requested flag. -/
def recursed_fire (r : recurse_t) : recurse_t := { r with isrequested := true }

/-- Embedding of recurse::is_requested. -/
def recurse_is_requested (r : recurse_t) : Bool := r.isrequested

/-- Embedding of recurse::is_allowed. -/
def recurse_is_allowed (r : recurse_t) : Bool := r.isallowed

/-- C9: a freshly constructed recurse context reports is_requested = true
before any reset, false after reset, and true again after the recursed
token is fired, so a dispatcher that consults is_requested without first
calling reset observes a spurious recursion request. -/
theorem recurse_fresh_requested (a : Bool) :
    recurse_is_requested (recurse_mk a) = true ∧
    recurse_is_requested (recurse_reset (recurse_mk a)) = false ∧
    recurse_is_requested (recursed_fire (recurse_reset (recurse_mk a))) = true := by
  refine ⟨rfl, rfl, rfl⟩

/-! ## Schedulable data and the recursion scope (schedulable) -/

/-- Worker handle: identity of the shared worker_interface plus its
lifetime subscription identity.  Equality is identity of both, matching
operator== on worker. -/
structure worker_t where
  inner : Nat
  lifetime : Nat
deriving DecidableEq

/-- Action handle: identity of the shared action_type. -/
structure action_t where
  inner : Nat
deriving DecidableEq

/-- Embedding of schedulable::recursed_scope_type: either empty or holding
the address of a recursed token. -/
def recursed_scope_t : Type := Option Nat

instance : DecidableEq recursed_scope_t := by
  unfold recursed_scope_t
  infer_instance

/-- Embedding of the recursed_scope_type copy constructor: the copy never
acquires the recursion scope (requestor starts at null). -/
def recursed_scope_copy (_s : recursed_scope_t) : recursed_scope_t := none

/-- Embedding of recursed_scope_type::operator=: assignment leaves the
recursion scope of the target unchanged. -/
def recursed_scope_assign (target _source : recursed_scope_t) :
    recursed_scope_t := target

/-- Embedding of recursed_scope_type::is_recursed: the requestor pointer is
set. -/
def recursed_scope_is_recursed (s : recursed_scope_t) : Bool := s.isSome

/-- Embedding of the data members of class schedulable. -/
structure schedulable_t where
  lifetime : Nat
  controller : worker_t
  activity : action_t
  «scoped» : Bool
  recursed_scope : recursed_scope_t
deriving DecidableEq

/-- Embedding of schedulable::is_recursed. -/
def schedulable_t.is_recursed (s : schedulable_t) : Bool :=
  recursed_scope_is_recursed s.recursed_scope

/-- The compiler-generated schedulable copy constructor: memberwise copy,
where the recursed_scope member is copied by its user-defined copy
constructor. -/
def schedulable_copy (s : schedulable_t) : schedulable_t :=
  { s with recursed_scope := recursed_scope_copy s.recursed_scope }

/-- The compiler-generated schedulable copy assignment: memberwise
assignment, where the recursed_scope member uses its user-defined
operator= (which keeps the target value). -/
def schedulable_assign (target source : schedulable_t) : schedulable_t :=
  { source with
    recursed_scope :=
      recursed_scope_assign target.recursed_scope source.recursed_scope }

/-- Embedding of schedulable::set_recursed: point the recursion scope at
the recursed token of the given recurse context. -/
def schedulable_set_recursed (s : schedulable_t) (tok : Nat) : schedulable_t :=
  { s with recursed_scope := some tok }

/-- C10: copying a schedulable never transfers the recursion token (the
copy reports is_recursed = false even when the source is inside an
invocation with its recursion scope set), and copy assignment leaves the
recursion scope of the target unchanged while copying the other members
from the source. -/
theorem schedulable_copy_drops_recursion (s t : schedulable_t) (tok : Nat) :
    (schedulable_copy s).is_recursed = false ∧
    (schedulable_copy (schedulable_set_recursed s tok)).is_recursed = false ∧
    (schedulable_assign t s).recursed_scope = t.recursed_scope ∧
    (schedulable_assign t s).lifetime = s.lifetime ∧
    (schedulable_assign t s).controller = s.controller ∧
    (schedulable_assign t s).activity = s.activity := by
  refine ⟨rfl, rfl, rfl, rfl, rfl, rfl⟩

/-! ## Action invocation and the empty action (action, detail::action_type) -/

/-- The outcome of invoking an action_type: a fatal abort, or the function
result. -/
inductive invoke_result (σ : Type) where
  | aborted
  | ok (st : σ)
deriving DecidableEq

/-- State seen by an action function: the subscription status of the
schedulable scope and the requested flag of the recurse context. -/
structure act_state where
  subscribed : Bool
  requested : Bool
deriving DecidableEq

/-- Embedding of detail::action_type::operator(): if the stored function
is absent the call aborts the process, otherwise the function runs. -/
def action_type_call (f : Option (act_state → act_state)) (st : act_state) :
    invoke_result act_state :=
  match f with
  | none => invoke_result.aborted
  | some g => invoke_result.ok (g st)

/-- Embedding of action::shared_empty, the default-constructed action_type
behind action::empty(): its function member is absent. -/
def action_shared_empty : Option (act_state → act_state) := none

/-- C5 counterexample: invoking the sentinel empty action with a live
subscribed schedulable state is not a no-op: it hits the abort branch of
action_type::operator(), refuting the claim that the empty action never
aborts. -/
theorem action_empty_invoke_aborts :
    action_type_call action_shared_empty ⟨true, false⟩ =
      invoke_result.aborted := by
  rfl

/-- C5 amended: invoking the sentinel empty action always aborts, for
every schedulable and recursion-context state, because the empty action
holds no underlying function; no user code runs and no recursion is ever
requested (no post-invocation state is produced at all). -/
theorem action_empty_invoke_always_aborts (st : act_state) :
    action_type_call action_shared_empty st = invoke_result.aborted := by
  rfl

/-! ## The action loop built by make_action -/

/-- The observable behavior of one call to the user function f: whether it
fires the recursed token, and whether it unsubscribes the scope of the
schedulable. -/
structure f_step where
  request : Bool
  unsub : Bool
deriving DecidableEq

/-- Observable events of an action invocation: the k-th call of the user
function, and the hand-off of the schedulable to the worker queue. -/
inductive event where
  | fcall (k : Nat)
  | enqueue
deriving DecidableEq

/-- Embedding of schedulable::schedule(): hand the schedulable to the
worker only when the scope is still subscribed, otherwise do nothing. -/
def schedulable_schedule (subscribed : Bool) : List event :=
  if subscribed then [event.enqueue] else []

/-- Embedding of the loop inside make_action: while the schedulable is
subscribed, reset the requested flag, call f, and then either tail-iterate
(allowed and requested), hand the schedulable back to the worker via
schedule() (requested but not allowed), or stop.  The Nat argument k
numbers the calls of f; fuel bounds the loop and none is returned when it
runs out. -/
def action_loop (f : Nat → f_step) (allowed : Bool) :
    Nat → Nat → act_state → Option (List event × act_state)
  | 0, _, _ => none
  | fuel + 1, k, st =>
    if st.subscribed then
      let st1 : act_state := { st with requested := false }
      let fs := f k
      let st2 : act_state :=
        { subscribed := st1.subscribed && !fs.unsub,
          requested := st1.requested || fs.request }
      if !allowed || !st2.requested then
        some (event.fcall k ::
          (if st2.requested then schedulable_schedule st2.subscribed else []),
          st2)
      else
        match action_loop f allowed fuel (k + 1) st2 with
        | none => none
        | some (tr, st3) => some (event.fcall k :: tr, st3)
    else
      some ([], st)

/-- C2: one invocation of an action built by make_action follows the
decision table.  When the scope is not subscribed nothing runs.  When it
is subscribed, the requested flag is reset and f is called once; if f did
not request recursion the invocation returns with no resubmission; if f
requested and tail-iteration is not allowed the schedulable is handed back
to its worker exactly once via schedule() and the invocation returns; if f
requested and tail-iteration is allowed the invocation continues with the
next call of f in the same invocation. -/
theorem make_action_decision_table (f : Nat → f_step) (allowed : Bool)
    (k fuel : Nat) (st : act_state) (hnu : ∀ j, (f j).unsub = false) :
    (st.subscribed = false →
      action_loop f allowed (fuel + 1) k st = some ([], st)) ∧
    (st.subscribed = true → (f k).request = false →
      action_loop f allowed (fuel + 1) k st =
        some ([event.fcall k], ⟨true, false⟩)) ∧
    (st.subscribed = true → (f k).request = true → allowed = false →
      action_loop f allowed (fuel + 1) k st =
        some ([event.fcall k, event.enqueue], ⟨true, true⟩)) ∧
    (st.subscribed = true → (f k).request = true → allowed = true →
      action_loop f allowed (fuel + 2) k st =
        match action_loop f allowed (fuel + 1) (k + 1) ⟨true, true⟩ with
        | none => none
        | some (tr, st3) => some (event.fcall k :: tr, st3)) := by
  refine ⟨?_, ?_, ?_, ?_⟩
  · intro hns
    simp [action_loop, hns]
  · intro hs hreq
    simp [action_loop, hs, hnu k, hreq]
  · intro hs hreq hal
    simp [action_loop, hs, hnu k, hreq, hal, schedulable_schedule]
  · intro hs hreq hal
    simp [action_loop, hs, hnu k, hreq, hal]

/-- Witness for the decision table: a function that never requests and
never unsubscribes is called exactly once and the invocation returns with
no resubmission. -/
theorem make_action_decision_table_witness :
    action_loop (fun _ => ⟨false, false⟩) true 1 0 ⟨true, true⟩ =
      some ([event.fcall 0], ⟨true, false⟩) :=
  (make_action_decision_table (fun _ => ⟨false, false⟩) true 0 0 ⟨true, true⟩
    (fun _ => rfl)).2.1 rfl rfl

/-- C4: if the scope of the schedulable becomes inactive while a call of f
is in flight (f unsubscribes during its k-th call), that call is not
interrupted (the event fcall k is produced), but nothing more happens
afterwards: the subscription check at the top of the loop stops any
tail-iteration, and a requeue request is a no-op because schedule() does
nothing when unsubscribed, so no enqueue event is produced either. -/
theorem make_action_unsubscribe_in_flight (f : Nat → f_step) (allowed : Bool)
    (k fuel : Nat) (st : act_state) (hu : (f k).unsub = true)
    (hs : st.subscribed = true) :
    action_loop f allowed (fuel + 2) k st =
      some ([event.fcall k], ⟨false, (f k).request⟩) ∧
    schedulable_schedule false = [] := by
  refine ⟨?_, rfl⟩
  by_cases hreq : (f k).request = true
  · by_cases hal : allowed = true
    · simp [action_loop, hs, hu, hreq, hal]
    · simp only [Bool.not_eq_true] at hal
      simp [action_loop, hs, hu, hreq, hal, schedulable_schedule]
  · simp only [Bool.not_eq_true] at hreq
    simp [action_loop, hs, hu, hreq, schedulable_schedule]

/-- Witness for the in-flight unsubscription theorem at a concrete input:
f unsubscribes and requests on its first call; only that one call happens
and no enqueue is produced. -/
theorem make_action_unsubscribe_in_flight_witness :
    action_loop (fun _ => ⟨true, true⟩) false 2 0 ⟨true, true⟩ =
      some ([event.fcall 0], ⟨false, true⟩) :=
  (make_action_unsubscribe_in_flight (fun _ => ⟨true, true⟩) false 0 0
    ⟨true, true⟩ rfl rfl).1

/-! ## Tail-iteration versus requeue (C6) -/

/-- The call indices of f recorded in a trace. -/
def calls_of (tr : List event) : List Nat :=
  tr.filterMap fun e =>
    match e with
    | event.fcall k => some k
    | event.enqueue => none

/-- The calls of f made by a single dispatch with tail-iteration allowed,
starting from a fresh recurse context (whose requested flag starts true). -/
def tail_calls (f : Nat → f_step) (fuel k : Nat) : Option (List Nat) :=
  (action_loop f true fuel k ⟨true, true⟩).map fun p => calls_of p.1

/-- The dispatch loop of a worker when tail-iteration is disallowed: run
one invocation (fuel 1 suffices, the loop body returns without iterating),
and while the invocation hands the schedulable back to the queue, dispatch
it again with a fresh recurse context, carrying the subscription state
across invocations. -/
def requeue_run (f : Nat → f_step) :
    Nat → Nat → Bool → Option (List Nat)
  | 0, _, _ => none
  | fuel + 1, k, sub =>
    match action_loop f false 1 k ⟨sub, true⟩ with
    | none => none
    | some (tr, st) =>
      if event.enqueue ∈ tr then
        match requeue_run f fuel (k + 1) st.subscribed with
        | none => none
        | some rest => some (calls_of tr ++ rest)
      else
        some (calls_of tr)

lemma calls_of_map_fcall (l : List Nat) :
    calls_of (l.map event.fcall) = l := by
  induction l with
  | nil => rfl
  | cons x xs ih => simp [calls_of] at ih ⊢; exact ih

/-- One-step unfolding of the action loop, with the fuel left variable so
that rewriting applies exactly once. -/
lemma action_loop_succ (f : Nat → f_step) (allowed : Bool)
    (fuel k : Nat) (st : act_state) :
    action_loop f allowed (fuel + 1) k st =
      if st.subscribed then
        let st1 : act_state := { st with requested := false }
        let fs := f k
        let st2 : act_state :=
          { subscribed := st1.subscribed && !fs.unsub,
            requested := st1.requested || fs.request }
        if !allowed || !st2.requested then
          some (event.fcall k ::
            (if st2.requested then schedulable_schedule st2.subscribed else []),
            st2)
        else
          match action_loop f allowed fuel (k + 1) st2 with
          | none => none
          | some (tr, st3) => some (event.fcall k :: tr, st3)
      else
        some ([], st) := by
  simp only [action_loop]

/-- One-step unfolding of the requeue driver, with the fuel left variable
so that rewriting applies exactly once. -/
lemma requeue_run_succ (f : Nat → f_step) (fuel k : Nat) (sub : Bool) :
    requeue_run f (fuel + 1) k sub =
      match action_loop f false 1 k ⟨sub, true⟩ with
      | none => none
      | some (tr, st) =>
        if event.enqueue ∈ tr then
          match requeue_run f fuel (k + 1) st.subscribed with
          | none => none
          | some rest => some (calls_of tr ++ rest)
        else
          some (calls_of tr) := by
  simp only [requeue_run]

/-- For the function that requests recursion on every call until call n, a
single tail-iterating invocation starting at call k with k + m = n visits
exactly the calls k, k+1, ..., n. -/
lemma tail_calls_range (n : Nat) :
    ∀ (m k : Nat), k + m = n →
      action_loop (fun j => ⟨decide (j < n), false⟩) true (m + 2) k
          ⟨true, true⟩ =
        some ((List.range' k (m + 1)).map event.fcall, ⟨true, false⟩) := by
  intro m
  induction m with
  | zero =>
    intro k hk
    subst hk
    simp [action_loop, List.range']
  | succ m ih =>
    intro k hk
    have hlt : k < n := by omega
    have hrec := ih (k + 1) (by omega)
    rw [show m + 1 + 2 = (m + 2) + 1 from rfl, action_loop_succ]
    have hd : decide (k < n) = true := by simp [hlt]
    simp only [hd, if_true]
    simp [hrec, List.range']

/-- For the same function, the requeue loop starting at call k with
k + m = n also visits exactly the calls k, k+1, ..., n. -/
lemma requeue_run_range (n : Nat) :
    ∀ (m k : Nat), k + m = n →
      requeue_run (fun j => ⟨decide (j < n), false⟩) (m + 1) k true =
        some (List.range' k (m + 1)) := by
  intro m
  induction m with
  | zero =>
    intro k hk
    subst hk
    simp [requeue_run, action_loop, calls_of, List.range']
  | succ m ih =>
    intro k hk
    have hlt : k < n := by omega
    have hrec := ih (k + 1) (by omega)
    have hstep : action_loop (fun j => ⟨decide (j < n), false⟩) false 1 k
        ⟨true, true⟩ = some ([event.fcall k, event.enqueue], ⟨true, true⟩) := by
      simp [action_loop, hlt, schedulable_schedule]
    rw [show m + 1 + 1 = (m + 1) + 1 from rfl, requeue_run_succ, hstep]
    simp [hrec, calls_of, List.range']

/-- C6: for an action whose function f requests recursion on every call
until call n (which stops requesting), with no cancellation, the sequence
of calls of f is identical whether the dispatching context allows
tail-iteration (one invocation iterating in place) or disallows it (every
repetition forced through the worker queue by requeueing): both produce
the calls 0, 1, ..., n in order. -/
theorem tail_iteration_requeue_equivalence (n : Nat) :
    tail_calls (fun j => ⟨decide (j < n), false⟩) (n + 2) 0 =
      requeue_run (fun j => ⟨decide (j < n), false⟩) (n + 1) 0 true ∧
    tail_calls (fun j => ⟨decide (j < n), false⟩) (n + 2) 0 =
      some (List.range (n + 1)) := by
  have h1 := tail_calls_range n n 0 (by omega)
  have h2 := requeue_run_range n n 0 (by omega)
  have h3 : tail_calls (fun j => ⟨decide (j < n), false⟩) (n + 2) 0 =
      some (List.range' 0 (n + 1)) := by
    simp [tail_calls, h1, calls_of_map_fcall]
  rw [h3, h2, List.range_eq_range']
  exact ⟨rfl, rfl⟩

/-! ## Schedulable invocation and the detacher (schedulable::operator()) -/

/-- What the inner action does when it runs: the subscription state it
leaves behind, and whether it exits by failure (a C++ exception leaving
the call to activity). -/
structure activity_run where
  subscribed : Bool
  threw : Bool
deriving DecidableEq

/-- Outcome of schedulable::operator()(const recurse&): a fatal abort when
invoked on an inactive scope, a normal return, or a propagated failure;
the Bool carries the subscription state of the scope on exit. -/
inductive sched_outcome where
  | aborted
  | normal (subscribed : Bool)
  | threw (subscribed : Bool)
deriving DecidableEq

/-- Embedding of schedulable::operator()(const recurse&): abort when the
scope is inactive; otherwise arm the detacher, run the activity, and
disarm the detacher on normal return.  The detacher destructor fires only
when the activity exits by failure, and then unsubscribes the scope. -/
def schedulable_invoke (activity : Bool → activity_run)
    (subscribed : Bool) : sched_outcome :=
  if subscribed then
    let r := activity subscribed
    if r.threw then
      sched_outcome.threw false
    else
      sched_outcome.normal r.subscribed
  else
    sched_outcome.aborted

/-- C7 counterexample: for an activity that returns normally and leaves
the scope subscribed, the invocation exits with the scope still active and
not unsubscribed (the detacher was disarmed on the normal path), refuting
the claim that on every exit a still-active scope is unsubscribed. -/
theorem schedulable_invoke_normal_keeps_subscription :
    schedulable_invoke (fun b => ⟨b, false⟩) true =
      sched_outcome.normal true := by
  rfl

/-- C7 amended: invoking a schedulable whose scope is already inactive
aborts; on exit by a failure inside the action the detacher unsubscribes
the scope; on normal exit the scope is left exactly as the action left it
(the detacher is disarmed before it runs, so no automatic
unsubscription happens on the normal path). -/
theorem schedulable_invoke_guard (activity : Bool → activity_run) :
    (schedulable_invoke activity false = sched_outcome.aborted) ∧
    ((activity true).threw = true →
      schedulable_invoke activity true = sched_outcome.threw false) ∧
    ((activity true).threw = false →
      schedulable_invoke activity true =
        sched_outcome.normal (activity true).subscribed) := by
  refine ⟨rfl, ?_, ?_⟩
  · intro h
    simp [schedulable_invoke, h]
  · intro h
    simp [schedulable_invoke, h]

/-- Witness for the invocation guard at a concrete activity that fails
while leaving the scope subscribed: the detacher unsubscribes it. -/
theorem schedulable_invoke_guard_witness :
    schedulable_invoke (fun b => ⟨b, true⟩) true =
      sched_outcome.threw false :=
  (schedulable_invoke_guard (fun b => ⟨b, true⟩)).2.1 rfl

/-! ## Worker rebinding (worker::schedule, worker::schedule_rebind) -/

/-- Embedding of the inherit-lifetimes schedulable constructor
(schedulable(schedulable, worker, action)): keep the lifetime and the
scoping mode of the source schedulable, take the given worker and action,
and start with an empty recursion scope. -/
def schedulable_inherit (scbl : schedulable_t) (q : worker_t)
    (a : action_t) : schedulable_t :=
  { lifetime := scbl.lifetime
    controller := q
    activity := a
    «scoped» := scbl.«scoped»
    recursed_scope := none }

/-- Embedding of make_schedulable(schedulable, worker): rebind the source
schedulable to the given worker, keeping its own action. -/
def make_schedulable_rebind (scbl : schedulable_t) (sc : worker_t) :
    schedulable_t :=
  schedulable_inherit scbl sc scbl.activity

/-- Embedding of worker::schedule / worker::schedule_rebind: the
schedulable handed to the primitive schedule operation of the strategy. -/
def worker_schedule_arg (w : worker_t) (scbl : schedulable_t) :
    schedulable_t :=
  make_schedulable_rebind scbl w

/-- Embedding of worker::schedule(when, ...) / schedule_rebind(when, ...):
the deadline and schedulable handed to the primitive schedule-at
operation. -/
def worker_schedule_at_arg (w : worker_t) (tpoint : Nat)
    (scbl : schedulable_t) : Nat × schedulable_t :=
  (tpoint, make_schedulable_rebind scbl w)

/-- Embedding of schedulable::get_worker. -/
def schedulable_t.get_worker (s : schedulable_t) : worker_t := s.controller

/-- C8: for every worker w and every schedulable s, including one whose
stored worker differs from w, both schedule and schedule-at hand the
primitive operation of the strategy a schedulable rebound to w: its
get_worker equals w, while it keeps the action of s and the
lifetime/scoping mode of s, and the requested deadline is passed
through unchanged. -/
theorem worker_schedule_rebinds (w : worker_t) (s : schedulable_t)
    (tpoint : Nat) :
    (worker_schedule_arg w s).get_worker = w ∧
    (worker_schedule_arg w s).activity = s.activity ∧
    (worker_schedule_arg w s).lifetime = s.lifetime ∧
    (worker_schedule_arg w s).«scoped» = s.«scoped» ∧
    (worker_schedule_at_arg w tpoint s).1 = tpoint ∧
    (worker_schedule_at_arg w tpoint s).2 = worker_schedule_arg w s := by
  refine ⟨rfl, rfl, rfl, rfl, rfl, rfl⟩

/-! ## Periodic scheduling (worker::schedule_periodically_rebind) -/

/-- State of the periodic composition: the shared mutable target deadline,
the current clock reading, and the deadlines submitted so far (the first
submission happens at construction, at the initial deadline). -/
structure periodic_sim where
  target : Nat
  clock : Nat
  submitted : List Nat
deriving DecidableEq

/-- Embedding of the start of schedule_periodically_rebind: the shared
target starts at the initial deadline and the periodic schedulable is
handed to the strategy at that deadline. -/
def periodic_start (initial clock0 : Nat) : periodic_sim :=
  ⟨initial, clock0, [initial]⟩

/-- Embedding of one run of the periodic schedulable: the body of the tick
runs (taking bodyDur time units, which only advances the clock), then the
shared target advances by exactly one period (never reset from the clock),
and the schedulable resubmits itself at the new target. -/
def periodic_tick (period bodyDur : Nat) (s : periodic_sim) : periodic_sim :=
  let clock2 := s.clock + bodyDur
  let target2 := s.target + period
  ⟨target2, clock2, s.submitted ++ [target2]⟩

/-- Run the periodic composition through one tick per entry of durs, where
each entry gives how long that tick body takes. -/
def periodic_run (initial clock0 period : Nat) (durs : List Nat) :
    periodic_sim :=
  durs.foldl (fun s d => periodic_tick period d s) (periodic_start initial clock0)

lemma periodic_foldl_submitted (period : Nat) :
    ∀ (durs : List Nat) (t c : Nat) (sub : List Nat),
      (durs.foldl (fun s d => periodic_tick period d s)
          ⟨t, c, sub⟩).submitted =
        sub ++ (List.range durs.length).map (fun i => t + (i + 1) * period) := by
  intro durs
  induction durs with
  | nil => intro t c sub; simp
  | cons d ds ih =>
    intro t c sub
    rw [List.foldl_cons]
    have hstep : periodic_tick period d ⟨t, c, sub⟩ =
        ⟨t + period, c + d, sub ++ [t + period]⟩ := rfl
    rw [hstep, ih]
    rw [List.length_cons, List.range_succ_eq_map]
    simp only [List.map_cons, List.map_map]
    rw [List.append_assoc]
    refine congrArg (sub ++ ·) ?_
    simp only [List.singleton_append, List.cons.injEq]
    refine ⟨by ring, ?_⟩
    refine List.map_congr_left ?_
    intro i _
    simp only [Function.comp_apply, Nat.succ_eq_add_one]
    ring

/-- C3: with no cancellation, the n-th tick of
schedule_periodically(initial, period, work) is submitted at deadline
initial + n * period, for every list of tick body durations: the shared
target advances by exactly one period per tick and never consults the
clock.  Concretely, with initial 0 and period 10, a first body taking 25
time units still makes the second submitted deadline 10 (already in the
past: the clock already reads 25 when it is submitted) and the third 20,
and a deadline is submitted for every tick. -/
theorem schedule_periodically_deadlines :
    (∀ (initial clock0 period : Nat) (durs : List Nat),
      (periodic_run initial clock0 period durs).submitted =
        (List.range (durs.length + 1)).map (fun n => initial + n * period)) ∧
    (periodic_run 0 0 10 [25, 3]).submitted = [0, 10, 20] ∧
    (periodic_run 0 0 10 [25]).submitted = [0, 10] ∧
    (periodic_run 0 0 10 [25]).clock = 25 ∧
    10 < (periodic_run 0 0 10 [25]).clock := by
  refine ⟨?_, by decide, by decide, by decide, by decide⟩
  intro initial clock0 period durs
  unfold periodic_run periodic_start
  rw [periodic_foldl_submitted]
  rw [List.range_succ_eq_map]
  simp only [List.map_cons, List.map_map, List.singleton_append]
  refine congrArg₂ List.cons (by ring) ?_
  refine List.map_congr_left ?_
  intro i _
  simp only [Function.comp_apply, Nat.succ_eq_add_one]

end RxSched
